import Mathlib

/-!
Shallow embedding of the update-resolution and fetch-integrity pipeline of
`triquetra.py` (a build-update client), together with proofs of the frozen
claims about it.  Pure helpers of the Python source are translated to Lean
functions; network and filesystem effects are passed in explicitly as
oracle values (`Except Unit _` for fallible calls).  Machine strings are
`String`/`List Char`; Python integers are `Nat`/`Int`.
-/

namespace Triquetra

/-! ## Character-level helpers shared by several source functions -/

/-- Python whitespace predicate used by `str.strip()` and `str.split()`
(ASCII portion: space, tab, newline, carriage return, vertical tab, form feed). -/
def py_isspace (c : Char) : Bool :=
  c = ' ' || c = '\t' || c = '\n' || c = '\r' || c = Char.ofNat 11 || c = Char.ofNat 12

/-- Python `str.strip()` on a character list: drop leading and trailing whitespace. -/
def pyStrip (l : List Char) : List Char :=
  ((l.dropWhile py_isspace).reverse.dropWhile py_isspace).reverse

/-- First whitespace-delimited token of a character list, i.e. Python
`s.split()[0]` returning `none` where Python raises `IndexError`. -/
def firstToken : List Char → Option (List Char)
  | [] => none
  | c :: cs =>
    if py_isspace c then firstToken cs
    else some (c :: cs.takeWhile (fun x => !py_isspace x))

/-- Fuelled scanner behind `digitRuns` (the fuel only bounds the recursion
so that the function stays structurally recursive; `digitRuns` supplies
enough fuel to consume the whole list). -/
def digitRunsFuel : Nat → List Char → List (List Char)
  | 0, _ => []
  | _ + 1, [] => []
  | fuel + 1, c :: cs =>
    if c.isDigit then
      (c :: cs.takeWhile Char.isDigit) :: digitRunsFuel fuel (cs.dropWhile Char.isDigit)
    else
      digitRunsFuel fuel cs

/-- Maximal runs of ASCII decimal digits, i.e. Python `re.findall(r"\d+", s)`
(each run kept as its character list). -/
def digitRuns (l : List Char) : List (List Char) := digitRunsFuel l.length l

/-- Python `int()` on a digit run (decimal value of the run). -/
def runToNat (r : List Char) : Nat :=
  r.foldl (fun acc c => acc * 10 + (c.toNat - 48)) 0

/-- Decimal digit character for a value below ten. -/
def digitChar (d : Nat) : Char := Char.ofNat (48 + d)

/-- Fuelled accumulator form of Python `str()` on a non-negative integer:
peel decimal digits from the right (the fuel only keeps the recursion
structural; `natRepr` supplies enough). -/
def natReprFuel : Nat → Nat → List Char → List Char
  | 0, _, acc => acc
  | fuel + 1, n, acc =>
    if n < 10 then digitChar n :: acc
    else natReprFuel fuel (n / 10) (digitChar (n % 10) :: acc)

/-- Python `str()` of a non-negative integer: its decimal digit characters. -/
def natRepr (n : Nat) : List Char := natReprFuel (n + 1) n []

/-- Python `s.lower()` (ASCII case folding). -/
def lowerStr (s : String) : String := ⟨s.data.map Char.toLower⟩

/-! ## `compare_version_lists` (claim C2) -/

/-- Loop body of `compare_version_lists`: position `i` of `a` and `b`
(missing positions read as `0`), with `fuel` positions left to inspect. -/
def cvlLoop (a b : List Int) (i : Nat) : Nat → Int
  | 0 => 0
  | fuel + 1 =>
    let ai := a.getD i 0
    let bi := b.getD i 0
    if bi < ai then 1
    else if ai < bi then -1
    else cvlLoop a b (i + 1) fuel

/-- `compare_version_lists(a, b)` from the source: walk positions
`0 ≤ i < max(len(a), len(b))`, padding the shorter list with zeros, and
return `1`/`-1` at the first position where the entries differ, else `0`. -/
def compare_version_lists (a b : List Int) : Int :=
  cvlLoop a b 0 (max a.length b.length)

/-- The padded list: `a` extended with trailing zeros to length `n`. -/
def padTo (a : List Int) (n : Nat) : List Int :=
  a ++ List.replicate (n - a.length) 0

/-- Positional first-difference comparison of two lists (the spec's
"compares elementwise by position" comparator). -/
def lexCmp : List Int → List Int → Int
  | x :: xs, y :: ys =>
    if y < x then 1 else if x < y then -1 else lexCmp xs ys
  | _, _ => 0

/-- Head/tail reformulation of the comparison loop, with `fuel` positions left. -/
def lexCmpN : Nat → List Int → List Int → Int
  | 0, _, _ => 0
  | fuel + 1, a, b =>
    let ai := a.headD 0
    let bi := b.headD 0
    if bi < ai then 1
    else if ai < bi then -1
    else lexCmpN fuel a.tail b.tail

theorem getD_eq_headD_drop (a : List Int) (i : Nat) :
    a.getD i 0 = (a.drop i).headD 0 := by
  induction a generalizing i with
  | nil => simp [List.getD]
  | cons x xs ih =>
    cases i with
    | zero => simp [List.getD]
    | succ j => simp only [List.getD, List.drop_succ_cons]; exact ih j

theorem cvlLoop_eq_lexCmpN (fuel : Nat) :
    ∀ (a b : List Int) (i : Nat),
      cvlLoop a b i fuel = lexCmpN fuel (a.drop i) (b.drop i) := by
  induction fuel with
  | zero => intro a b i; rfl
  | succ n ih =>
    intro a b i
    simp only [cvlLoop, lexCmpN, ← getD_eq_headD_drop, List.tail_drop]
    split
    · rfl
    · split
      · rfl
      · exact ih a b (i + 1)

theorem padTo_succ (a : List Int) (n : Nat) :
    padTo a (n + 1) = a.headD 0 :: padTo a.tail n := by
  cases a with
  | nil => simp [padTo, List.replicate_succ]
  | cons x xs => simp [padTo, Nat.succ_sub_succ]

theorem lexCmpN_eq_lexCmp_padTo (n : Nat) :
    ∀ a b : List Int, a.length ≤ n → b.length ≤ n →
      lexCmpN n a b = lexCmp (padTo a n) (padTo b n) := by
  induction n with
  | zero =>
    intro a b ha hb
    rw [List.length_eq_zero.mp (Nat.le_zero.mp ha),
      List.length_eq_zero.mp (Nat.le_zero.mp hb)]
    rfl
  | succ m ih =>
    intro a b ha hb
    rw [padTo_succ, padTo_succ]
    simp only [lexCmpN, lexCmp]
    split
    · rfl
    · split
      · rfl
      · exact ih a.tail b.tail
          (by cases a <;> simp_all)
          (by cases b <;> simp_all)

theorem cvlLoop_self (a : List Int) (i : Nat) (fuel : Nat) :
    cvlLoop a a i fuel = 0 := by
  induction fuel generalizing i with
  | zero => rfl
  | succ n ih =>
    simp only [cvlLoop]
    rw [if_neg (lt_irrefl _), if_neg (lt_irrefl _)]
    exact ih (i + 1)

/-- Claim C2: `compare_version_lists` pads the shorter sequence with trailing
zeros to the longer's length and compares elementwise by position (first
difference decides, `1` when the `a`-entry is larger, `-1` when smaller, `0`
when all padded positions agree); in particular
`compare([26100,6130],[26100,1742]) = 1`, `compare([22621,1],[26100,1]) = -1`,
`compare([1],[1,0]) = 0`, and `compare(a,a) = 0` for every `a`. -/
theorem compare_version_lists_spec :
    (∀ a b : List Int,
      compare_version_lists a b =
        lexCmp (padTo a (max a.length b.length)) (padTo b (max a.length b.length)))
    ∧ compare_version_lists [26100, 6130] [26100, 1742] = 1
    ∧ compare_version_lists [22621, 1] [26100, 1] = -1
    ∧ compare_version_lists [1] [1, 0] = 0
    ∧ ∀ a : List Int, compare_version_lists a a = 0 := by
  refine ⟨?_, by decide, by decide, by decide, ?_⟩
  · intro a b
    rw [compare_version_lists, cvlLoop_eq_lexCmpN, List.drop_zero, List.drop_zero,
      lexCmpN_eq_lexCmp_padTo _ _ _ (Nat.le_max_left _ _) (Nat.le_max_right _ _)]
  · intro a
    exact cvlLoop_self a 0 _

/-! ## `fetch_md5` (claim C9) -/

/-- `fetch_md5` from the source, applied to the already-fetched sidecar body:
strip the body, take `split()[0]` and lower-case it.  `none` models the
`IndexError` the source raises when the stripped body has no token. -/
def fetch_md5 (body : String) : Option String :=
  match firstToken (pyStrip body.data) with
  | none => none
  | some tok => some ⟨tok.map Char.toLower⟩

theorem firstToken_eq_none_iff (m : List Char) :
    firstToken m = none ↔ ∀ c ∈ m, py_isspace c := by
  induction m with
  | nil => simp [firstToken]
  | cons c cs ih =>
    simp only [firstToken]
    split
    · simp [*]
    · simp_all

theorem pyStrip_all_space_iff (l : List Char) :
    (∀ c ∈ pyStrip l, py_isspace c) ↔ ∀ c ∈ l, py_isspace c := by
  constructor
  · intro h c hc
    rcases (by rw [List.takeWhile_append_dropWhile] ; exact hc :
        c ∈ l.takeWhile py_isspace ++ l.dropWhile py_isspace) |> List.mem_append.mp with
      h1 | h2
    · exact List.mem_takeWhile_imp h1
    · set d := l.dropWhile py_isspace with hd
      have hc2 : c ∈ d.reverse := List.mem_reverse.mpr h2
      rcases (by rw [List.takeWhile_append_dropWhile] ; exact hc2 :
          c ∈ d.reverse.takeWhile py_isspace ++ d.reverse.dropWhile py_isspace)
          |> List.mem_append.mp with h3 | h4
      · exact List.mem_takeWhile_imp h3
      · exact h c (by simpa [pyStrip, hd] using h4)
  · intro h c hc
    have h1 : l.dropWhile py_isspace = [] := List.dropWhile_eq_nil_iff.mpr h
    simp [pyStrip, h1] at hc

/-- Claim C9: `fetch_md5` returns normally iff the stripped sidecar body has
at least one whitespace-delimited token; on an empty or whitespace-only body
it raises an unguarded `IndexError` (modelled as `none`) instead of returning
a digest or a typed error. -/
theorem fetch_md5_empty_body :
    ∀ body : String, fetch_md5 body = none ↔ ∀ c ∈ body.data, py_isspace c := by
  intro body
  rw [show (fetch_md5 body = none) ↔ firstToken (pyStrip body.data) = none by
        unfold fetch_md5 ; cases firstToken (pyStrip body.data) <;> simp,
    firstToken_eq_none_iff]
  exact pyStrip_all_space_iff body.data

/-! ## `normalize_local_to_short` (claim C8) -/

/-- `normalize_local_to_short` from the source: extract the digit runs of the
full version string; with no run, return the input unchanged with an empty
integer list; otherwise keep the first one or two runs as integers and join
them with a dot for display. -/
def normalize_local_to_short (full_ver : String) : String × List Int :=
  match digitRuns full_ver.data with
  | [] => (full_ver, [])
  | [n0] => (⟨natRepr (runToNat n0)⟩, [(runToNat n0 : Int)])
  | n0 :: n1 :: _ =>
    (⟨natRepr (runToNat n0) ++ '.' :: natRepr (runToNat n1)⟩,
      [(runToNat n0 : Int), (runToNat n1 : Int)])

/-- Modelled from the spec: the `parseShort` contract of §4.1, which demands
a `ParseError` when the raw string contains no digit run (the source instead
returns the raw string with an empty list).  Used only to state the
refutation of claim C8. -/
def parseShort_spec (full_ver : String) : Except Unit (String × List Int) :=
  match digitRuns full_ver.data with
  | [] => .error ()
  | [n0] => .ok (⟨natRepr (runToNat n0)⟩, [(runToNat n0 : Int)])
  | n0 :: n1 :: _ =>
    .ok (⟨natRepr (runToNat n0) ++ '.' :: natRepr (runToNat n1)⟩,
      [(runToNat n0 : Int), (runToNat n1 : Int)])

/-- Claim C8, counterexample: on the digit-free input `"abc"` the source
function returns normally with the sentinel pair `("abc", [])`, while the
claim demands a `ParseError` failure (the spec-modelled contract errors). -/
theorem normalize_no_digits_returns :
    normalize_local_to_short "abc" = ("abc", [])
    ∧ parseShort_spec "abc" = .error () := by
  constructor <;> rfl

/-- Dot-joined rendering of a list of digit strings (Python
`".".join(str(x) for x in parts)`). -/
def joinDots : List (List Char) → List Char
  | [] => []
  | [x] => x
  | x :: xs => x ++ '.' :: joinDots xs

/-- Claim C8, amended: with no digit run the function does not fail but
returns the input string paired with the empty sequence; with at least one
digit run it returns the dot-joined display of at most the first two runs
and those runs as the integer sequence (later runs discarded). -/
theorem normalize_local_to_short_spec (s : String) :
    (digitRuns s.data = [] → normalize_local_to_short s = (s, []))
    ∧ (digitRuns s.data ≠ [] →
        (normalize_local_to_short s).2 =
          ((digitRuns s.data).take 2).map (fun r => (runToNat r : Int))
        ∧ (normalize_local_to_short s).1 =
          ⟨joinDots (((digitRuns s.data).take 2).map (fun r => natRepr (runToNat r)))⟩) := by
  constructor
  · intro h
    unfold normalize_local_to_short
    rw [h]
  · intro h
    unfold normalize_local_to_short
    rcases hr : digitRuns s.data with _ | ⟨n0, _ | ⟨n1, rest⟩⟩
    · exact absurd hr h
    · exact ⟨rfl, rfl⟩
    · exact ⟨rfl, rfl⟩

/-- Witness for the amended claim C8 at concrete inputs: `"abc"` has no digit
run and maps to the sentinel pair; `"26100.6130.77"` has three runs, of which
only the first two survive, displayed as `"26100.6130"`. -/
theorem normalize_local_to_short_spec_witness :
    (digitRuns ("abc" : String).data = []
      ∧ normalize_local_to_short "abc" = ("abc", []))
    ∧ (digitRuns ("26100.6130.77" : String).data ≠ []
      ∧ (normalize_local_to_short "26100.6130.77").2 = [(26100 : Int), 6130]) := by
  refine ⟨⟨by decide, (normalize_local_to_short_spec "abc").1 (by decide)⟩,
    ⟨by decide, ?_⟩⟩
  rw [((normalize_local_to_short_spec "26100.6130.77").2 (by decide)).1]
  decide

/-! ## `download_file` (claim C1) -/

/-- Oracle for one iteration of the `download_file` loop: whether the
destination file already exists, the outcome of `fetch_text` on the sibling
`.md5` resource, the outcome of computing the local digest, and the outcome
of streaming the resource to disk. -/
structure DlEnv where
  fileExists : Bool
  md5Body : Except Unit String
  localMd5 : Except Unit String
  transfer : Except Unit Unit

/-- How one `download_file` call ends: a returned destination path together
with whether the transfer was performed (`false` = the idempotent
short-circuit, no bytes written), or a propagated exception. -/
inductive DlResult
  | returned (path : String) (transferred : Bool)
  | raised
deriving DecidableEq

/-- One iteration of the `while True` body of `download_file`: when the file
exists, try fetching the sidecar digest (`fetch_md5`, whose `IndexError` on
an empty body is also caught here) and computing the local one; on a
case-insensitive match skip the transfer and return the path, and on any
verification error fall through to redownloading.  A transfer error becomes
`raised` (handled by the enclosing retry loop). -/
def download_attempt (destPath : String) (env : DlEnv) : DlResult :=
  let need_download :=
    if env.fileExists then
      match env.md5Body with
      | .error _ => true
      | .ok body =>
        match fetch_md5 body with
        | none => true
        | some server =>
          match env.localMd5 with
          | .error _ => true
          | .ok localDigest => !(lowerStr localDigest = lowerStr server)
    else true
  if need_download then
    match env.transfer with
    | .ok _ => .returned destPath true
    | .error _ => .raised
  else
    .returned destPath false

/-- The retry loop of `download_file`: on a failed attempt, ask the user
(`retryAns`), give up when declined or when the retry budget is exhausted,
and otherwise run the next attempt (`envs k` is the oracle of attempt `k`). -/
def dlLoop (destPath : String) (envs : Nat → DlEnv) (retryAns : Nat → Bool)
    (k : Nat) : Nat → DlResult
  | 0 => .raised
  | retries + 1 =>
    match download_attempt destPath (envs k) with
    | .raised =>
      if retryAns k = false then .raised
      else if retries = 0 then .raised
      else dlLoop destPath envs retryAns (k + 1) retries
    | r => r

/-- `download_file` from the source: the retry loop entered with
`max_retries = 3`. -/
def download_file (destPath : String) (envs : Nat → DlEnv)
    (retryAns : Nat → Bool) : DlResult :=
  dlLoop destPath envs retryAns 0 3

/-- Claim C1: with an existing destination file, `download_file` fetches the
sidecar checksum and compares it with the fresh local digest; on a match it
returns the local path with no transfer performed, and any error while
fetching or computing the checksum (a failed fetch, an empty sidecar body,
a failed local digest) is swallowed and leads to a redownload instead of a
propagated failure. -/
theorem download_file_verify_spec (dp : String) (envs : Nat → DlEnv)
    (ans : Nat → Bool) :
    (∀ body digest localDigest,
      (envs 0).fileExists = true →
      (envs 0).md5Body = .ok body →
      fetch_md5 body = some digest →
      (envs 0).localMd5 = .ok localDigest →
      lowerStr localDigest = lowerStr digest →
      download_file dp envs ans = .returned dp false)
    ∧ ((envs 0).fileExists = true →
      ((envs 0).md5Body = .error ()
        ∨ (∃ b, (envs 0).md5Body = .ok b ∧ fetch_md5 b = none)
        ∨ (envs 0).localMd5 = .error ()) →
      (envs 0).transfer = .ok () →
      download_file dp envs ans = .returned dp true) := by
  constructor
  · intro body digest localDigest hex hbody hdig hloc hmatch
    unfold download_file dlLoop download_attempt
    rw [hex, hbody]
    simp [hdig, hloc, hmatch]
  · intro hex herr htr
    unfold download_file dlLoop download_attempt
    rw [hex]
    rcases herr with h | ⟨b, hb, hnone⟩ | h
    · simp [h, htr]
    · simp [hb, hnone, htr]
    · rcases hm : (envs 0).md5Body with _ | body
      · simp [hm, htr]
      · rcases hf : fetch_md5 body with _ | server
        · simp [hm, hf, htr]
        · simp [hm, hf, h, htr]

/-- Witness for claim C1: a matching digest (case-insensitively, via the
sidecar body `"ABC  junk"`) short-circuits with no transfer, and a failed
sidecar fetch redownloads successfully instead of failing. -/
theorem download_file_verify_spec_witness :
    (⟨true, .ok "ABC  junk", .ok "abc", .error ()⟩ : DlEnv).fileExists = true
    ∧ fetch_md5 "ABC  junk" = some "abc"
    ∧ download_file "f.cab" (fun _ => ⟨true, .ok "ABC  junk", .ok "abc", .error ()⟩)
        (fun _ => false) = .returned "f.cab" false
    ∧ download_file "f.cab" (fun _ => ⟨true, .error (), .ok "abc", .ok ()⟩)
        (fun _ => false) = .returned "f.cab" true := by
  refine ⟨rfl, by decide, ?_, ?_⟩
  · exact (download_file_verify_spec "f.cab"
      (fun _ => ⟨true, .ok "ABC  junk", .ok "abc", .error ()⟩) (fun _ => false)).1
      "ABC  junk" "abc" "abc" rfl rfl (by decide) rfl (by decide)
  · exact (download_file_verify_spec "f.cab"
      (fun _ => ⟨true, .error (), .ok "abc", .ok ()⟩) (fun _ => false)).2
      rfl (Or.inl rfl) rfl

/-! ## Target-build determination in `main` (claim C3) -/

/-- Accumulator form of Python `s.split(".")`. -/
def splitOnDotAux : List Char → List Char → List (List Char)
  | [], cur => [cur.reverse]
  | c :: cs, cur =>
    if c = '.' then cur.reverse :: splitOnDotAux cs []
    else splitOnDotAux cs (c :: cur)

/-- Python `s.split(".")` on a character list. -/
def splitOnDot (l : List Char) : List (List Char) := splitOnDotAux l []

/-- Python `[int(x) for x in v.split(".")]` on a dotted decimal string. -/
def pyIntList (v : String) : List Int :=
  (splitOnDot v.data).map (fun r => (runToNat r : Int))

/-- Python `<` on integer lists (lexicographic, a strict prefix is smaller). -/
def listIntLt : List Int → List Int → Bool
  | [], [] => false
  | [], _ :: _ => true
  | _ :: _, [] => false
  | a :: as, b :: bs =>
    if a < b then true else if b < a then false else listIntLt as bs

/-- Python `max(xs, key=key)`: the first element with the maximal key
(`none` on an empty list, where Python raises `ValueError`). -/
def pyMax (key : String → List Int) : List String → Option String
  | [] => none
  | x :: xs =>
    some (xs.foldl (fun best c => if listIntLt (key best) (key c) then c else best) x)

/-- The fatal exits of the target-build determination step of `main`. -/
inductive SelectError
  | buildUnavailable
  | buildNotFound
  | requiredBaselineMissing
  | emptyBranch
deriving DecidableEq

/-- The target-build determination step of `main`: an explicit override is
taken from the completeness-filtered branch set (`same_branch`), failing when
it is only in the raw folder list or absent entirely; otherwise, on branch
26100 with a local minor below 1742, the baseline build `26100.1742` is
forced (missing baseline is fatal); otherwise the maximum build of
`same_branch` by version order is picked. -/
def determine_target (override : Option String) (folders same_branch : List String)
    (local_parts : List Int) : Except SelectError (String × List Int) :=
  match override with
  | some o =>
    if o ∈ same_branch then .ok (o, pyIntList o)
    else if o ∈ folders then .error .buildUnavailable
    else .error .buildNotFound
  | none =>
    let forced : Except SelectError (Option (String × List Int)) :=
      if local_parts.getD 0 0 = 26100
          ∧ 1 < local_parts.length ∧ local_parts.getD 1 0 < 1742 then
        if "26100.1742" ∈ same_branch then .ok (some ("26100.1742", [26100, 1742]))
        else .error .requiredBaselineMissing
      else .ok none
    match forced with
    | .error e => .error e
    | .ok (some r) => .ok r
    | .ok none =>
      match pyMax pyIntList same_branch with
      | none => .error .emptyBranch
      | some best => .ok (best, pyIntList best)

/-- Claim C3: with no override, a local major of 26100 and a local minor
below 1742, the resolver selects the baseline build `26100.1742` whenever it
is in the completeness-filtered branch set (even when larger builds are
present), and fails with the required-baseline-missing exit when that exact
build is absent from that set. -/
theorem determine_target_baseline (folders same_branch : List String) (lm : Int)
    (h : lm < 1742) :
    ("26100.1742" ∈ same_branch →
      determine_target none folders same_branch [26100, lm] =
        .ok ("26100.1742", [26100, 1742]))
    ∧ ("26100.1742" ∉ same_branch →
      determine_target none folders same_branch [26100, lm] =
        .error .requiredBaselineMissing) := by
  constructor
  · intro hmem
    unfold determine_target
    rw [if_pos ⟨rfl, by simp, by simpa [List.getD] using h⟩, if_pos hmem]
  · intro hmem
    unfold determine_target
    rw [if_pos ⟨rfl, by simp, by simpa [List.getD] using h⟩, if_neg hmem]

/-- Witness for claim C3, the end-to-end scenario of the spec: local version
`[26100, 1500]` against the remote branch set containing `26100.1742` and
the larger `26100.2000` selects `26100.1742`, not the maximum. -/
theorem determine_target_baseline_witness :
    (1500 : Int) < 1742
    ∧ determine_target none ["26100.1742", "26100.2000"]
        ["26100.1742", "26100.2000"] [26100, 1500] =
      .ok ("26100.1742", [26100, 1742]) := by
  exact ⟨by decide,
    (determine_target_baseline ["26100.1742", "26100.2000"]
      ["26100.1742", "26100.2000"] 1500 (by decide)).1 (by decide)⟩

/-! ## Version-comparison gate in `main` (claim C4) -/

/-- How the version-comparison step of `main` routes the run: continue to
the download, end successfully after a declined same-version reinstall (the
enablement-package side path), or end successfully because the remote build
is older than the local one (no download, no install). -/
inductive GateOutcome
  | proceed
  | exitReinstallDeclined
  | exitRemoteOlder
deriving DecidableEq

/-- The version-comparison step of `main`: compare the selected build's
version with the local one; on equality without an override, prompt for a
reinstall (declining ends the run successfully); on a strictly smaller
remote version without an override, end the run successfully with no
action; otherwise proceed. -/
def version_gate (best_parts local_parts : List Int) (hasOverride : Bool)
    (reinstallYes : Bool) : GateOutcome :=
  let cmpres := compare_version_lists best_parts local_parts
  if cmpres = 0 ∧ hasOverride = false then
    if reinstallYes then .proceed else .exitReinstallDeclined
  else if cmpres < 0 ∧ hasOverride = false then .exitRemoteOlder
  else .proceed

/-- Claim C4: with no override, a selected build whose version compares
strictly below the local version ends the run successfully with no download
or install (`exitRemoteOlder`; never downgrades); with an override, both the
equal-version reinstall prompt and the remote-older early exit are bypassed
and the run proceeds. -/
theorem version_gate_spec (best_parts local_parts : List Int) (ans : Bool) :
    (compare_version_lists best_parts local_parts < 0 →
      version_gate best_parts local_parts false ans = .exitRemoteOlder)
    ∧ version_gate best_parts local_parts true ans = .proceed := by
  constructor
  · intro hlt
    unfold version_gate
    rw [if_neg (by simp ; omega), if_pos ⟨hlt, rfl⟩]
  · unfold version_gate
    rw [if_neg (by simp), if_neg (by simp)]

/-- Witness for claim C4: remote `[26100, 1742]` against local
`[26100, 6130]` compares below, so the run exits with no action, while the
same comparison under an override proceeds. -/
theorem version_gate_spec_witness :
    compare_version_lists [26100, 1742] [26100, 6130] < 0
    ∧ version_gate [26100, 1742] [26100, 6130] false true = .exitRemoteOlder
    ∧ version_gate [26100, 1742] [26100, 6130] true false = .proceed := by
  refine ⟨by decide, ?_, ?_⟩
  · exact (version_gate_spec [26100, 1742] [26100, 6130] true).1 (by decide)
  · exact (version_gate_spec [26100, 1742] [26100, 6130] false).2

/-! ## Mirror selection: `choose_fastest_mirror` and `try_mirrors` (claim C7) -/

/-- The score recorded for one mirror probe: the measured throughput on
success, `0` when the probe raised (the source appends `(0, base)` in its
`except` branch). -/
def probeScore (probe : String → Option ℚ) (base : String) : ℚ :=
  match probe base with
  | some s => s
  | none => 0

/-- Stable descending insertion of a scored mirror: it goes after every
earlier entry whose score is at least as large (Python `list.sort` with
`reverse=True` is stable, so ties keep candidate-list order). -/
def insertDesc (x : ℚ × String) : List (ℚ × String) → List (ℚ × String)
  | [] => [x]
  | h :: t => if x.1 ≤ h.1 then h :: insertDesc x t else x :: h :: t

/-- Stable descending sort by score of the probe results. -/
def sortDesc (l : List (ℚ × String)) : List (ℚ × String) :=
  l.foldl (fun acc x => insertDesc x acc) []

/-- `choose_fastest_mirror` from the source: score every candidate (failures
score zero), fail when the result list is empty or every score is zero, and
otherwise return the first entry of the descending sort. -/
def choose_fastest_mirror (probe : String → Option ℚ) (mirrors : List String) :
    Except Unit String :=
  let results := mirrors.map fun b => (probeScore probe b, b)
  if results = [] ∨ ∀ r ∈ results, r.1 = 0 then .error ()
  else
    match sortDesc results with
    | [] => .error ()
    | best :: _ => .ok best.2

/-- `try_mirrors` from the source: return the first candidate whose fetch
succeeds, failing when none does. -/
def try_mirrors (probe : String → Bool) : List String → Except Unit String
  | [] => .error ()
  | b :: rest => if probe b then .ok b else try_mirrors probe rest

theorem insertDesc_perm (x : ℚ × String) (l : List (ℚ × String)) :
    List.Perm (insertDesc x l) (x :: l) := by
  induction l with
  | nil => rfl
  | cons h t ih =>
    simp only [insertDesc]
    split
    · exact ((ih.cons h).trans (List.Perm.swap x h t))
    · rfl

theorem sortDesc_perm (l : List (ℚ × String)) : List.Perm (sortDesc l) l := by
  have key : ∀ (l acc : List (ℚ × String)),
      List.Perm (l.foldl (fun acc x => insertDesc x acc) acc) (acc ++ l) := by
    intro l
    induction l with
    | nil => intro acc; simp
    | cons x xs ih =>
      intro acc
      refine List.Perm.trans (ih (insertDesc x acc)) ?_
      refine List.Perm.trans ((insertDesc_perm x acc).append_right xs) ?_
      exact List.perm_middle.symm
  simpa using key l []

theorem insertDesc_sorted (x : ℚ × String) (l : List (ℚ × String))
    (hl : l.Pairwise (fun p q => q.1 ≤ p.1)) :
    (insertDesc x l).Pairwise (fun p q => q.1 ≤ p.1) := by
  induction l with
  | nil => simp [insertDesc]
  | cons h t ih =>
    rcases List.pairwise_cons.mp hl with ⟨hh, ht⟩
    simp only [insertDesc]
    by_cases hxh : x.1 ≤ h.1
    · rw [if_pos hxh]
      refine List.pairwise_cons.mpr ⟨?_, ih ht⟩
      intro y hy
      rcases List.mem_cons.mp ((insertDesc_perm x t).mem_iff.mp hy) with hy' | hy'
      · exact hy' ▸ hxh
      · exact hh y hy'
    · rw [if_neg hxh]
      refine List.pairwise_cons.mpr ⟨?_, hl⟩
      intro y hy
      rcases List.mem_cons.mp hy with hy' | hy'
      · exact hy' ▸ le_of_lt (lt_of_not_le hxh)
      · exact le_trans (hh y hy') (le_of_lt (lt_of_not_le hxh))

theorem sortDesc_sorted (l : List (ℚ × String)) :
    (sortDesc l).Pairwise (fun p q => q.1 ≤ p.1) := by
  have key : ∀ (l acc : List (ℚ × String)),
      acc.Pairwise (fun p q => q.1 ≤ p.1) →
      (l.foldl (fun acc x => insertDesc x acc) acc).Pairwise (fun p q => q.1 ≤ p.1) := by
    intro l
    induction l with
    | nil => intro acc h; exact h
    | cons x xs ih => intro acc h; exact ih _ (insertDesc_sorted x acc h)
  exact key l [] (by simp)

/-- The running maximum that keeps the earlier entry on a tie: the entry the
stable descending sort ends up placing first. -/
def bestOf (best c : ℚ × String) : ℚ × String := if best.1 < c.1 then c else best

theorem foldl_bestOf_firstMax (l : List (ℚ × String)) :
    ∀ x : ℚ × String, ∃ l1 l2,
      x :: l = l1 ++ (l.foldl bestOf x) :: l2
      ∧ (∀ y ∈ x :: l, y.1 ≤ (l.foldl bestOf x).1)
      ∧ (∀ y ∈ l1, y.1 < (l.foldl bestOf x).1) := by
  induction l with
  | nil =>
    intro x
    exact ⟨[], [], rfl, by simp, by simp⟩
  | cons c cs ih =>
    intro x
    rw [List.foldl_cons]
    by_cases hxc : x.1 < c.1
    · rw [show bestOf x c = c from if_pos hxc]
      rcases ih c with ⟨l1, l2, hdec, hle, hlt⟩
      refine ⟨x :: l1, l2, ?_, ?_, ?_⟩
      · rw [List.cons_append, ← hdec]
      · intro y hy
        rcases List.mem_cons.mp hy with rfl | hy2
        · exact le_of_lt (lt_of_lt_of_le hxc (hle c (List.mem_cons_self c cs)))
        · exact hle y hy2
      · intro y hy
        rcases List.mem_cons.mp hy with rfl | hy2
        · exact lt_of_lt_of_le hxc (hle c (List.mem_cons_self c cs))
        · exact hlt y hy2
    · rw [show bestOf x c = x from if_neg hxc]
      have hcx : c.1 ≤ x.1 := le_of_not_lt hxc
      rcases ih x with ⟨l1, l2, hdec, hle, hlt⟩
      have hxM : x.1 ≤ (cs.foldl bestOf x).1 := hle x (List.mem_cons_self x cs)
      rcases l1 with _ | ⟨h1, t1⟩
      · rw [List.nil_append] at hdec
        injection hdec with hM hl2
        refine ⟨[], c :: cs, ?_, ?_, ?_⟩
        · rw [List.nil_append, ← hM]
        · intro y hy
          rcases List.mem_cons.mp hy with rfl | hy2
          · exact hxM
          · rcases List.mem_cons.mp hy2 with rfl | hy3
            · exact le_trans hcx hxM
            · exact hle y (List.mem_cons_of_mem x hy3)
        · intro y hy
          exact absurd hy (List.not_mem_nil y)
      · rw [List.cons_append] at hdec
        injection hdec with hx1 hcs
        refine ⟨x :: c :: t1, l2, ?_, ?_, ?_⟩
        · rw [List.cons_append, List.cons_append, ← hcs]
        · intro y hy
          rcases List.mem_cons.mp hy with rfl | hy2
          · exact hxM
          · rcases List.mem_cons.mp hy2 with rfl | hy3
            · exact le_trans hcx hxM
            · exact hle y (List.mem_cons_of_mem x hy3)
        · intro y hy
          have hh1 : h1.1 < (cs.foldl bestOf x).1 := hlt h1 (List.mem_cons_self h1 t1)
          rcases List.mem_cons.mp hy with rfl | hy2
          · exact hx1 ▸ hh1
          · rcases List.mem_cons.mp hy2 with rfl | hy3
            · exact lt_of_le_of_lt hcx (hx1 ▸ hh1)
            · exact hlt y (List.mem_cons_of_mem h1 hy3)

theorem sortDesc_cons_head (l : List (ℚ × String)) :
    ∀ (h : ℚ × String) (t : List (ℚ × String)), ∃ t2,
      l.foldl (fun acc x => insertDesc x acc) (h :: t)
        = (l.foldl bestOf h) :: t2 := by
  induction l with
  | nil => intro h t; exact ⟨t, rfl⟩
  | cons c cs ih =>
    intro h t
    rw [List.foldl_cons, List.foldl_cons]
    by_cases hch : c.1 ≤ h.1
    · rw [show insertDesc c (h :: t) = h :: insertDesc c t from by
          simp only [insertDesc, if_pos hch],
        show bestOf h c = h from if_neg (not_lt.mpr hch)]
      exact ih h (insertDesc c t)
    · rw [show insertDesc c (h :: t) = c :: h :: t from by
          simp only [insertDesc, if_neg hch],
        show bestOf h c = c from if_pos (not_le.mp hch)]
      exact ih c (h :: t)

/-- Claim C7: `choose_fastest_mirror` scores every failed probe as zero,
fails when every candidate scores zero (and only then, never returning a
candidate), and otherwise selects the highest-scoring candidate with ties
broken by candidate list position (the returned candidate's score bounds
every candidate's score, and every earlier candidate scores strictly less);
when exactly one candidate has a positive score it returns that candidate —
as does `try_mirrors` for the candidate whose probe alone succeeds. -/
theorem mirror_selection_spec (probe : String → Option ℚ)
    (probe2 : String → Bool) (mirrors : List String) (m : String) :
    (∀ b, probe b = none → probeScore probe b = 0)
    ∧ ((∀ b ∈ mirrors, probeScore probe b = 0) →
        choose_fastest_mirror probe mirrors = .error ())
    ∧ (m ∈ mirrors → 0 < probeScore probe m →
        (∀ b ∈ mirrors, b ≠ m → probeScore probe b = 0) →
        choose_fastest_mirror probe mirrors = .ok m)
    ∧ ((∀ b ∈ mirrors, probe2 b = false) → try_mirrors probe2 mirrors = .error ())
    ∧ (m ∈ mirrors → probe2 m = true →
        (∀ b ∈ mirrors, b ≠ m → probe2 b = false) →
        try_mirrors probe2 mirrors = .ok m)
    ∧ (mirrors ≠ [] → ¬(∀ b ∈ mirrors, probeScore probe b = 0) →
        ∃ best l1 l2, choose_fastest_mirror probe mirrors = .ok best
          ∧ mirrors = l1 ++ best :: l2
          ∧ (∀ b ∈ mirrors, probeScore probe b ≤ probeScore probe best)
          ∧ ∀ b ∈ l1, probeScore probe b < probeScore probe best) := by
  refine ⟨?_, ?_, ?_, ?_, ?_, ?_⟩
  · intro b hb
    simp [probeScore, hb]
  · intro hz
    simp only [choose_fastest_mirror]
    rw [if_pos]
    right
    intro r hr
    rcases List.mem_map.mp hr with ⟨b, hb, rfl⟩
    exact hz b hb
  · intro hm hpos hz
    have hmem : (probeScore probe m, m) ∈ mirrors.map (fun b => (probeScore probe b, b)) :=
      List.mem_map.mpr ⟨m, hm, rfl⟩
    simp only [choose_fastest_mirror]
    rw [if_neg]
    · rcases hs : sortDesc (mirrors.map fun b => (probeScore probe b, b)) with
        _ | ⟨best, rest⟩
      · exfalso
        have h0 := sortDesc_perm (mirrors.map fun b => (probeScore probe b, b))
        rw [hs] at h0
        rw [h0.symm.eq_nil] at hmem
        exact absurd hmem (List.not_mem_nil _)
      · show Except.ok best.2 = Except.ok m
        have hperm := sortDesc_perm (mirrors.map fun b => (probeScore probe b, b))
        have hbestmem : best ∈ mirrors.map (fun b => (probeScore probe b, b)) :=
          hperm.subset (hs ▸ List.mem_cons_self best rest)
        rcases List.mem_map.mp hbestmem with ⟨b0, hb0, hfb⟩
        have hsorted := sortDesc_sorted (mirrors.map fun b => (probeScore probe b, b))
        rw [hs] at hsorted
        have hmem2 : (probeScore probe m, m) ∈ best :: rest :=
          hs ▸ hperm.symm.subset hmem
        rcases List.mem_cons.mp hmem2 with heq | hrest
        · rw [← heq]
        · have hle : probeScore probe m ≤ best.1 :=
            (List.pairwise_cons.mp hsorted).1 _ hrest
          by_cases hb : b0 = m
          · subst hb
            rw [← hfb]
          · exfalso
            have h0 : probeScore probe b0 = 0 := hz b0 hb0 hb
            rw [← hfb] at hle
            simp only [h0] at hle
            exact absurd (lt_of_lt_of_le hpos hle) (lt_irrefl 0)
    · intro hcond
      rcases hcond with h | h
      · rw [h] at hmem
        exact absurd hmem (List.not_mem_nil _)
      · exact absurd (h _ hmem) (ne_of_gt hpos)
  · intro hf
    induction mirrors with
    | nil => rfl
    | cons b rest ih =>
      simp only [try_mirrors]
      rw [if_neg (by simp [hf b (by simp)])]
      exact ih (fun x hx => hf x (List.mem_cons_of_mem b hx))
  · intro hm hyes hz
    induction mirrors with
    | nil => exact absurd hm (List.not_mem_nil m)
    | cons b rest ih =>
      by_cases hbm : b = m
      · subst hbm
        simp only [try_mirrors]
        rw [if_pos hyes]
      · simp only [try_mirrors]
        rw [if_neg (by simp [hz b (List.mem_cons_self b rest) hbm])]
        exact ih (by rcases List.mem_cons.mp hm with h | h
                     · exact absurd h.symm hbm
                     · exact h)
          (fun x hx hne => hz x (List.mem_cons_of_mem b hx) hne)
  · intro hne hnz
    rcases mirrors with _ | ⟨b, bs⟩
    · exact absurd rfl hne
    simp only [choose_fastest_mirror]
    rw [if_neg]
    swap
    · rintro (h | h)
      · simp at h
      · exact hnz (fun x hx => h _ (List.mem_map.mpr ⟨x, hx, rfl⟩))
    rcases sortDesc_cons_head (bs.map fun x => (probeScore probe x, x))
        (probeScore probe b, b) [] with ⟨t2, hfold⟩
    have hsd : sortDesc ((b :: bs).map fun x => (probeScore probe x, x))
        = ((bs.map fun x => (probeScore probe x, x)).foldl bestOf
            (probeScore probe b, b)) :: t2 := by
      rw [List.map_cons]
      exact hfold
    rw [hsd]
    show ∃ best l1 l2,
      Except.ok ((bs.map fun x => (probeScore probe x, x)).foldl bestOf
        (probeScore probe b, b)).2 = Except.ok best ∧ _
    rcases foldl_bestOf_firstMax (bs.map fun x => (probeScore probe x, x))
        (probeScore probe b, b) with ⟨L1, L2, hdec, hle, hlt⟩
    have hdec2 : (b :: bs).map (fun x => (probeScore probe x, x)) = L1 ++
        ((bs.map fun x => (probeScore probe x, x)).foldl bestOf
          (probeScore probe b, b)) :: L2 := by
      rw [List.map_cons]
      exact hdec
    rcases List.append_eq_map_iff.mp hdec2.symm with ⟨s1, t1, hsplit, hs1, ht1⟩
    rcases List.map_eq_cons_iff.mp ht1 with ⟨mstr, trest, ht1split, hfm, _⟩
    refine ⟨mstr, s1, trest, ?_, ?_, ?_, ?_⟩
    · rw [← hfm]
    · rw [hsplit, ht1split]
    · intro x hx
      have hmemx : (probeScore probe x, x)
          ∈ (probeScore probe b, b) :: bs.map fun x => (probeScore probe x, x) := by
        rcases List.mem_cons.mp hx with rfl | hx2
        · exact List.mem_cons_self _ _
        · exact List.mem_cons_of_mem _ (List.mem_map.mpr ⟨x, hx2, rfl⟩)
      have hb := hle _ hmemx
      rw [← hfm] at hb
      exact hb
    · intro x hxs1
      have hmemx : (probeScore probe x, x) ∈ L1 := by
        rw [← hs1]
        exact List.mem_map.mpr ⟨x, hxs1, rfl⟩
      have hb := hlt _ hmemx
      rw [← hfm] at hb
      exact hb

/-- Witness for claim C7: of the three candidates only `"b"` probes
successfully (with positive throughput); both selectors return `"b"`; with
every probe failing both fail; and under the tied scores `a ↦ 2, b ↦ 5,
c ↦ 5` the selector picks a highest-scoring candidate preceded only by
strictly slower ones — concretely `"b"`, the earlier of the tied pair. -/
theorem mirror_selection_spec_witness :
    ("b" : String) ∈ (["a", "b", "c"] : List String)
    ∧ 0 < probeScore (fun b => if b = "b" then some 1 else none) "b"
    ∧ choose_fastest_mirror (fun b => if b = "b" then some 1 else none)
        ["a", "b", "c"] = .ok "b"
    ∧ try_mirrors (fun b => b = "b") ["a", "b", "c"] = .ok "b"
    ∧ choose_fastest_mirror (fun _ => none) ["a", "b", "c"] = .error ()
    ∧ try_mirrors (fun _ => false) ["a", "b", "c"] = .error ()
    ∧ (∃ best l1 l2,
        choose_fastest_mirror (fun b => if b = "a" then some 2 else some 5)
          ["a", "b", "c"] = .ok best
        ∧ ["a", "b", "c"] = l1 ++ best :: l2
        ∧ (∀ b ∈ (["a", "b", "c"] : List String),
            probeScore (fun b => if b = "a" then some 2 else some 5) b
              ≤ probeScore (fun b => if b = "a" then some 2 else some 5) best)
        ∧ ∀ b ∈ l1,
            probeScore (fun b => if b = "a" then some 2 else some 5) b
              < probeScore (fun b => if b = "a" then some 2 else some 5) best)
    ∧ choose_fastest_mirror (fun b => if b = "a" then some 2 else some 5)
        ["a", "b", "c"] = .ok "b" := by
  refine ⟨by decide, by norm_num [probeScore], ?_, ?_, ?_, ?_, ?_, by rfl⟩
  · exact (mirror_selection_spec (fun b => if b = "b" then some 1 else none)
      (fun b => b = "b") ["a", "b", "c"] "b").2.2.1
      (by decide) (by norm_num [probeScore])
      (by intro b hb hne
          fin_cases hb <;> simp_all [probeScore])
  · exact (mirror_selection_spec (fun b => if b = "b" then some 1 else none)
      (fun b => b = "b") ["a", "b", "c"] "b").2.2.2.2.1
      (by decide) (by decide)
      (by intro b hb hne
          fin_cases hb <;> simp_all)
  · exact (mirror_selection_spec (fun _ => none)
      (fun _ => false) ["a", "b", "c"] "b").2.1
      (by intro b hb; simp [probeScore])
  · exact (mirror_selection_spec (fun _ => none)
      (fun _ => false) ["a", "b", "c"] "b").2.2.2.1
      (by intro b hb; rfl)
  · exact (mirror_selection_spec (fun b => if b = "a" then some 2 else some 5)
      (fun _ => false) ["a", "b", "c"] "b").2.2.2.2.2
      (by decide)
      (by decide)

/-! ## Artifact classification in `main` (claim C6) -/

/-- Regex word character (`\w`), ASCII portion. -/
def isWordChar (c : Char) : Bool := c.isAlpha || c.isDigit || c = '_'

/-- Lower-cased character list of a file name (the patterns carry `(?i)`). -/
def lowerData (s : String) : List Char := s.data.map Char.toLower

/-- Scanner for `\bssu` with room for the final `.cab` after it: `bdry` says
whether a word boundary precedes the current position. -/
def hasSsuBdry : Bool → List Char → Bool
  | _, [] => false
  | bdry, c :: cs =>
    (bdry && decide ((c :: cs).take 3 = ['s', 's', 'u']) && decide (6 ≤ cs.length))
    || hasSsuBdry (!isWordChar c) cs

/-- Scanner for `\b(?:windows|kb)` with room for the final `.esd` after it. -/
def hasWkbBdry : Bool → List Char → Bool
  | _, [] => false
  | bdry, c :: cs =>
    (bdry && decide ((c :: cs).take 7 = ['w', 'i', 'n', 'd', 'o', 'w', 's'])
       && decide (10 ≤ cs.length))
    || (bdry && decide ((c :: cs).take 2 = ['k', 'b']) && decide (5 ≤ cs.length))
    || hasWkbBdry (!isWordChar c) cs

/-- Scanner for an `ndp` occurrence with room for the final `.cab` after it
(the second alternative of the source pattern, `.*-NDP.*\.cab$`, is subsumed
by the first). -/
def hasNdpRun : List Char → Bool
  | [] => false
  | c :: cs =>
    (decide ((c :: cs).take 3 = ['n', 'd', 'p']) && decide (6 ≤ cs.length))
    || hasNdpRun cs

/-- `re.search(r"(?i)\bssu.*\.cab$", f)` as a Boolean: case-insensitively,
the name ends in `.cab` and contains `ssu` at a word boundary before it. -/
def ssuMatch (f : String) : Bool :=
  List.isSuffixOf ['.', 'c', 'a', 'b'] (lowerData f) && hasSsuBdry true (lowerData f)

/-- `re.search(r"(?i)\b(?:windows|kb).*\.esd$", f)` as a Boolean. -/
def esdMatch (f : String) : Bool :=
  List.isSuffixOf ['.', 'e', 's', 'd'] (lowerData f) && hasWkbBdry true (lowerData f)

/-- `re.search(r"(?i)\.msu$", f)` as a Boolean: the name ends in `.msu`. -/
def msuMatch (f : String) : Bool :=
  List.isSuffixOf ['.', 'm', 's', 'u'] (lowerData f)

/-- `re.search(r"(?i)NDP.*\.cab$|.*-NDP.*\.cab$", f)` as a Boolean. -/
def ndpMatch (f : String) : Bool :=
  List.isSuffixOf ['.', 'c', 'a', 'b'] (lowerData f) && hasNdpRun (lowerData f)

/-- The four `selected_*` values of `main`: the first file matching each
role's pattern, if any. -/
structure Artifacts where
  cab : Option String
  esd : Option String
  msu : Option String
  ndp : Option String
deriving DecidableEq

/-- The candidate filtering and first-match selection of `main`. -/
def select_artifacts (files : List String) : Artifacts :=
  { cab := (files.filter ssuMatch).head?
    esd := (files.filter esdMatch).head?
    msu := (files.filter msuMatch).head?
    ndp := (files.filter ndpMatch).head? }

/-- The two install paths of `main` after classification. -/
inductive InstallPlan
  | msuOnly (msu : String) (ndp : Option String)
  | cabEsd (cab esd : String) (ndp : Option String)
deriving DecidableEq

/-- The classification step of `main`: a standalone-update (`.msu`) match
takes the installer-only path; otherwise both the servicing-stack and the
cumulative-update selections must be present, and a missing one is the
fatal incomplete-artifact-set exit (`.error ()`). -/
def classify_run (files : List String) : Except Unit InstallPlan :=
  let a := select_artifacts files
  match a.msu with
  | some m => .ok (.msuOnly m a.ndp)
  | none =>
    match a.cab, a.esd with
    | some c, some e => .ok (.cabEsd c e a.ndp)
    | _, _ => .error ()

/-- Claim C6: when some listed file matches the standalone-update pattern,
classification takes the installer-only path and the fatal
servicing-stack/cumulative-update check is skipped entirely; otherwise the
run fails exactly when the servicing-stack pattern or the cumulative-update
pattern has no match (the framework-companion match never matters for the
fatal check). -/
theorem classify_run_spec (files : List String) :
    ((∃ f ∈ files, msuMatch f = true) →
      ∃ m ndp, classify_run files = .ok (.msuOnly m ndp))
    ∧ ((∀ f ∈ files, msuMatch f = false) →
      (classify_run files = .error () ↔
        (∀ f ∈ files, ssuMatch f = false) ∨ (∀ f ∈ files, esdMatch f = false))) := by
  constructor
  · rintro ⟨f, hf, hmsu⟩
    have hne : files.filter msuMatch ≠ [] := by
      intro h
      exact absurd hmsu (by simpa using (List.filter_eq_nil_iff.mp h) f hf)
    rcases hh : (files.filter msuMatch).head? with _ | m
    · exact absurd (List.head?_eq_none_iff.mp hh) hne
    · exact ⟨m, (files.filter ndpMatch).head?,
        by simp [classify_run, select_artifacts, hh]⟩
  · intro hno
    have hmsu : (files.filter msuMatch).head? = none := by
      rw [List.head?_eq_none_iff]
      rw [List.filter_eq_nil_iff]
      intro f hf
      simp [hno f hf]
    constructor
    · intro herr
      rcases hc : (files.filter ssuMatch).head? with _ | c
      · left
        intro f hf
        have := List.filter_eq_nil_iff.mp (List.head?_eq_none_iff.mp hc) f hf
        simpa using this
      · rcases he : (files.filter esdMatch).head? with _ | e
        · right
          intro f hf
          have := List.filter_eq_nil_iff.mp (List.head?_eq_none_iff.mp he) f hf
          simpa using this
        · exfalso
          have : classify_run files = .ok (.cabEsd c e (files.filter ndpMatch).head?) := by
            simp [classify_run, select_artifacts, hmsu, hc, he]
          rw [this] at herr
          exact Except.noConfusion herr
    · intro hmiss
      rcases hmiss with h | h
      · have hc : (files.filter ssuMatch).head? = none := by
          rw [List.head?_eq_none_iff, List.filter_eq_nil_iff]
          intro f hf
          simp [h f hf]
        simp [classify_run, select_artifacts, hmsu, hc]
      · have he : (files.filter esdMatch).head? = none := by
          rw [List.head?_eq_none_iff, List.filter_eq_nil_iff]
          intro f hf
          simp [h f hf]
        rcases hc : (files.filter ssuMatch).head? with _ | c <;>
          simp [classify_run, select_artifacts, hmsu, hc, he]

/-- Witness for claim C6: a folder holding only a standalone `.msu` file is
classified onto the installer-only path with no fatal pair check, while a
folder with a servicing-stack `.cab` but no cumulative `.esd` (and no
`.msu`) hits the fatal incomplete-artifact-set exit. -/
theorem classify_run_spec_witness :
    (∃ m ndp, classify_run ["Windows11-KB5-x64.msu"] = .ok (.msuOnly m ndp))
    ∧ classify_run ["ssu-19041.cab", "other.txt"] = .error () := by
  constructor
  · exact (classify_run_spec ["Windows11-KB5-x64.msu"]).1
      ⟨"Windows11-KB5-x64.msu", by decide, by decide⟩
  · exact ((classify_run_spec ["ssu-19041.cab", "other.txt"]).2
      (by intro f hf; fin_cases hf <;> decide)).mpr
      (Or.inr (by intro f hf; fin_cases hf <;> decide))

/-! ## `parse_h5ai_index_for_folders` (claims C5 and C10) -/

/-- One HTML anchor of the index document: its `href` attribute and its
visible text (the document surrounding the anchors never matters to the
parser, which only iterates over `soup.find_all("a", href=True)`). -/
structure Anchor where
  href : String
  text : String

/-- Python `href.rstrip("/")`. -/
def rstripSlash (l : List Char) : List Char :=
  (l.reverse.dropWhile (fun c => c = '/')).reverse

/-- Python `token.split("/")[-1]`: the characters after the last slash. -/
def lastSegment (l : List Char) : List Char :=
  (l.reverse.takeWhile (fun c => c != '/')).reverse

/-- The per-anchor body of the `parse_h5ai_index_for_folders` loop, up to the
point where `short_parts` is computed: strip the href, skip `../` and `/`,
extract digit runs from the last path segment (falling back to the anchor
text when the segment has none), skip anchors with fewer than two runs, and
apply the nested-`10.0`-prefix rule for four or more runs. -/
def anchorShortParts (a : Anchor) : Option (Nat × Nat) :=
  let href := pyStrip a.href.data
  if href = ['.', '.', '/'] ∨ href = ['/'] then none
  else
    let token := lastSegment (rstripSlash href)
    let nums0 := digitRuns token
    let nums := if nums0 = [] then digitRuns (pyStrip a.text.data) else nums0
    match nums with
    | n0 :: n1 :: n2 :: n3 :: _ =>
      if n0 = ['1', '0'] ∧ n1 = ['0'] then some (runToNat n2, runToNat n3)
      else some (runToNat n0, runToNat n1)
    | n0 :: n1 :: _ => some (runToNat n0, runToNat n1)
    | _ => none

/-- Python `f"{short_parts[0]}.{short_parts[1]}"`. -/
def mkShort (p : Nat × Nat) : String := ⟨natRepr p.1 ++ '.' :: natRepr p.2⟩

/-- The `short_name` an anchor contributes, if any. -/
def anchorShort (a : Anchor) : Option String := (anchorShortParts a).map mkShort

/-- The folder-collection loop of `parse_h5ai_index_for_folders`: append each
contributed `short_name` unless it is already present. -/
def collectFolders (anchors : List Anchor) : List String :=
  anchors.foldl
    (fun fs a =>
      match anchorShort a with
      | none => fs
      | some s => if s ∈ fs then fs else fs ++ [s])
    []

/-- The sort key `tuple(int(x) for x in v.split("."))` of the source (the
components are decimal digit runs, hence non-negative). -/
def keyOf (s : String) : List Nat := (splitOnDot s.data).map runToNat

/-- Python `<=` on the integer tuples used as sort keys (lexicographic,
a strict prefix is smaller). -/
def listNatLe : List Nat → List Nat → Bool
  | [], _ => true
  | _ :: _, [] => false
  | a :: as, b :: bs =>
    if a < b then true else if b < a then false else listNatLe as bs

/-- Stable ascending insertion by sort key (`list.sort` is stable: equal
keys keep their collection order). -/
def insertByKey (x : String) : List String → List String
  | [] => [x]
  | h :: t =>
    if listNatLe (keyOf x) (keyOf h) then x :: h :: t else h :: insertByKey x t

/-- Stable ascending insertion sort by sort key. -/
def sortByKey : List String → List String
  | [] => []
  | x :: xs => insertByKey x (sortByKey xs)

/-- `parse_h5ai_index_for_folders` from the source, over the anchor list of
the document: collect de-duplicated short names, then sort ascending by
numeric tuple. -/
def parse_h5ai_index_for_folders (anchors : List Anchor) : List String :=
  sortByKey (collectFolders anchors)

/-! ### Decimal rendering and dot-splitting groundwork -/

theorem natReprFuel_eq (n : Nat) :
    ∀ fuel acc, n < fuel → natReprFuel fuel n acc = natRepr n ++ acc := by
  induction n using Nat.strong_induction_on with
  | _ n ih =>
    intro fuel acc hfuel
    match fuel with
    | f + 1 =>
      by_cases h10 : n < 10
      · simp [natReprFuel, natRepr, h10]
      · have hdiv : n / 10 < n := Nat.div_lt_self (by omega) (by omega)
        simp only [natReprFuel, if_neg h10, natRepr]
        rw [ih (n / 10) hdiv f _ (by omega),
          ih (n / 10) hdiv n _ (by omega), List.append_assoc]
        rfl

theorem natRepr_lt_ten (n : Nat) (h : n < 10) : natRepr n = [digitChar n] := by
  simp [natRepr, natReprFuel, h]

theorem natRepr_ge_ten (n : Nat) (h : 10 ≤ n) :
    natRepr n = natRepr (n / 10) ++ [digitChar (n % 10)] := by
  have hdiv : n / 10 < n := Nat.div_lt_self (by omega) (by omega)
  conv_lhs => rw [natRepr]
  rw [show n + 1 = n + 1 from rfl]
  simp only [natReprFuel, if_neg (by omega : ¬ n < 10)]
  exact natReprFuel_eq (n / 10) n _ (by omega)

theorem digitChar_isDigit (d : Nat) (h : d < 10) : (digitChar d).isDigit = true := by
  revert h
  revert d
  decide

theorem digitChar_toNat (d : Nat) (h : d < 10) : (digitChar d).toNat = 48 + d := by
  revert h
  revert d
  decide

theorem mem_natRepr_isDigit (n : Nat) : ∀ c ∈ natRepr n, c.isDigit = true := by
  induction n using Nat.strong_induction_on with
  | _ n ih =>
    by_cases h10 : n < 10
    · rw [natRepr_lt_ten n h10]
      intro c hc
      rw [List.mem_singleton.mp hc]
      exact digitChar_isDigit n h10
    · rw [natRepr_ge_ten n (by omega)]
      intro c hc
      rcases List.mem_append.mp hc with h | h
      · exact ih (n / 10) (Nat.div_lt_self (by omega) (by omega)) c h
      · rw [List.mem_singleton.mp h]
        exact digitChar_isDigit _ (Nat.mod_lt _ (by omega))

theorem runToNat_natRepr (n : Nat) : runToNat (natRepr n) = n := by
  induction n using Nat.strong_induction_on with
  | _ n ih =>
    by_cases h10 : n < 10
    · rw [natRepr_lt_ten n h10]
      simp [runToNat, digitChar_toNat n h10]
    · rw [natRepr_ge_ten n (by omega)]
      simp only [runToNat, List.foldl_append, List.foldl_cons, List.foldl_nil]
      rw [show (natRepr (n / 10)).foldl (fun acc c => acc * 10 + (c.toNat - 48)) 0
            = runToNat (natRepr (n / 10)) from rfl,
        ih (n / 10) (Nat.div_lt_self (by omega) (by omega)),
        digitChar_toNat _ (Nat.mod_lt _ (by omega))]
      omega

theorem mem_natRepr_ne_dot (n : Nat) : ∀ c ∈ natRepr n, c ≠ '.' := by
  intro c hc heq
  have := mem_natRepr_isDigit n c hc
  rw [heq] at this
  exact absurd this (by decide)

theorem splitOnDotAux_no_dot (l : List Char) :
    ∀ cur, (∀ c ∈ l, c ≠ '.') → splitOnDotAux l cur = [cur.reverse ++ l] := by
  induction l with
  | nil => intro cur _; simp [splitOnDotAux]
  | cons c cs ih =>
    intro cur hno
    simp only [splitOnDotAux, if_neg (hno c (List.mem_cons_self c cs))]
    rw [ih (c :: cur) (fun x hx => hno x (List.mem_cons_of_mem c hx))]
    simp

theorem splitOnDotAux_append_dot (xs : List Char) :
    ∀ (ys : List Char) (cur : List Char), (∀ c ∈ xs, c ≠ '.') →
      splitOnDotAux (xs ++ '.' :: ys) cur = (cur.reverse ++ xs) :: splitOnDot ys := by
  induction xs with
  | nil =>
    intro ys cur _
    simp [splitOnDotAux, splitOnDot]
  | cons x xs ih =>
    intro ys cur hno
    simp only [List.cons_append, splitOnDotAux,
      if_neg (hno x (List.mem_cons_self x xs))]
    rw [show (xs.append ('.' :: ys)) = xs ++ '.' :: ys from rfl,
      ih ys (x :: cur) (fun c hc => hno c (List.mem_cons_of_mem x hc))]
    simp

theorem splitOnDot_mkShort (m n : Nat) :
    splitOnDot (natRepr m ++ '.' :: natRepr n) = [natRepr m, natRepr n] := by
  rw [splitOnDot, splitOnDotAux_append_dot _ _ _ (mem_natRepr_ne_dot m)]
  rw [splitOnDot, splitOnDotAux_no_dot _ _ (mem_natRepr_ne_dot n)]
  simp

theorem keyOf_mkShort (p : Nat × Nat) : keyOf (mkShort p) = [p.1, p.2] := by
  show ((splitOnDot (natRepr p.1 ++ '.' :: natRepr p.2)).map runToNat) = _
  rw [splitOnDot_mkShort]
  simp [runToNat_natRepr]

/-! ### Collection and sorting lemmas -/

theorem listNatLe_total (a : List Nat) :
    ∀ b, listNatLe a b = true ∨ listNatLe b a = true := by
  induction a with
  | nil => intro b; left; rfl
  | cons x xs ih =>
    intro b
    cases b with
    | nil => right; rfl
    | cons y ys =>
      simp only [listNatLe]
      rcases Nat.lt_trichotomy x y with h | h | h
      · left; rw [if_pos h]
      · subst h
        simp only [if_neg (lt_irrefl x)]
        exact ih ys
      · right; rw [if_pos h]

theorem listNatLe_trans (a : List Nat) :
    ∀ b c, listNatLe a b = true → listNatLe b c = true → listNatLe a c = true := by
  induction a with
  | nil => intros; rfl
  | cons x xs ih =>
    intro b c hab hbc
    cases b with
    | nil => simp [listNatLe] at hab
    | cons y ys =>
      cases c with
      | nil => simp [listNatLe] at hbc
      | cons z zs =>
        simp only [listNatLe] at hab hbc ⊢
        split_ifs at hab hbc ⊢ <;>
          first
            | rfl
            | exact ih ys zs hab hbc
            | omega

theorem listNatLe_pair_strict (a b c d : Nat)
    (hle : listNatLe [a, b] [c, d] = true) (hne : (a, b) ≠ (c, d)) :
    a < c ∨ (a = c ∧ b < d) := by
  simp only [listNatLe] at hle
  split_ifs at hle with h1 h2 h3 h4
  · exact Or.inl h1
  · exact Or.inr ⟨by omega, h3⟩
  · exfalso
    exact hne (by rw [show a = c by omega, show b = d by omega])

theorem insertByKey_perm (x : String) (l : List String) :
    List.Perm (insertByKey x l) (x :: l) := by
  induction l with
  | nil => rfl
  | cons h t ih =>
    simp only [insertByKey]
    split
    · rfl
    · exact ((ih.cons h).trans (List.Perm.swap x h t))

theorem sortByKey_perm (l : List String) : List.Perm (sortByKey l) l := by
  induction l with
  | nil => rfl
  | cons x xs ih => exact (insertByKey_perm x (sortByKey xs)).trans (ih.cons x)

theorem insertByKey_sorted (x : String) (l : List String)
    (hl : l.Pairwise (fun s t => listNatLe (keyOf s) (keyOf t) = true)) :
    (insertByKey x l).Pairwise (fun s t => listNatLe (keyOf s) (keyOf t) = true) := by
  induction l with
  | nil => simp [insertByKey]
  | cons h t ih =>
    rcases List.pairwise_cons.mp hl with ⟨hh, ht⟩
    simp only [insertByKey]
    by_cases hx : listNatLe (keyOf x) (keyOf h) = true
    · rw [if_pos hx]
      refine List.pairwise_cons.mpr ⟨?_, hl⟩
      intro y hy
      rcases List.mem_cons.mp hy with rfl | hy2
      · exact hx
      · exact listNatLe_trans _ _ _ hx (hh y hy2)
    · rw [if_neg hx]
      have hxh : listNatLe (keyOf h) (keyOf x) = true :=
        (listNatLe_total _ _).resolve_left hx
      refine List.pairwise_cons.mpr ⟨?_, ih ht⟩
      intro y hy
      rcases List.mem_cons.mp ((insertByKey_perm x t).mem_iff.mp hy) with rfl | hy2
      · exact hxh
      · exact hh y hy2

theorem sortByKey_sorted (l : List String) :
    (sortByKey l).Pairwise (fun s t => listNatLe (keyOf s) (keyOf t) = true) := by
  induction l with
  | nil => simp [sortByKey]
  | cons x xs ih => exact insertByKey_sorted x _ ih

theorem collect_step_mem (s : String) :
    ∀ (l : List Anchor) (acc : List String),
      (s ∈ l.foldl
          (fun fs a =>
            match anchorShort a with
            | none => fs
            | some v => if v ∈ fs then fs else fs ++ [v])
          acc
        ↔ s ∈ acc ∨ ∃ a ∈ l, anchorShort a = some s) := by
  intro l
  induction l with
  | nil => intro acc; simp
  | cons a as ih =>
    intro acc
    rw [List.foldl_cons, ih]
    rcases ha : anchorShort a with _ | v
    · simp [ha]
    · show (s ∈ (if v ∈ acc then acc else acc ++ [v]) ∨ ∃ b ∈ as, anchorShort b = some s)
        ↔ s ∈ acc ∨ ∃ b ∈ a :: as, anchorShort b = some s
      by_cases hv : v ∈ acc
      · rw [if_pos hv]
        constructor
        · rintro (h | ⟨b, hb, hsb⟩)
          · exact Or.inl h
          · exact Or.inr ⟨b, List.mem_cons_of_mem a hb, hsb⟩
        · rintro (h | ⟨b, hb, hsb⟩)
          · exact Or.inl h
          · rcases List.mem_cons.mp hb with rfl | h2
            · rw [ha] at hsb
              exact Or.inl ((Option.some_inj.mp hsb) ▸ hv)
            · exact Or.inr ⟨b, h2, hsb⟩
      · rw [if_neg hv]
        constructor
        · rintro (h | ⟨b, hb, hsb⟩)
          · rcases List.mem_append.mp h with h2 | h2
            · exact Or.inl h2
            · exact Or.inr ⟨a, List.mem_cons_self a as,
                by rw [ha, List.mem_singleton.mp h2]⟩
          · exact Or.inr ⟨b, List.mem_cons_of_mem a hb, hsb⟩
        · rintro (h | ⟨b, hb, hsb⟩)
          · exact Or.inl (List.mem_append.mpr (Or.inl h))
          · rcases List.mem_cons.mp hb with rfl | h2
            · rw [ha] at hsb
              exact Or.inl (List.mem_append.mpr (Or.inr
                (by rw [Option.some_inj.mp hsb]; exact List.mem_singleton_self s)))
            · exact Or.inr ⟨b, h2, hsb⟩

theorem collectFolders_mem (anchors : List Anchor) (s : String) :
    s ∈ collectFolders anchors ↔ ∃ a ∈ anchors, anchorShort a = some s := by
  rw [collectFolders, collect_step_mem]
  simp

theorem collect_step_nodup :
    ∀ (l : List Anchor) (acc : List String), acc.Nodup →
      (l.foldl
        (fun fs a =>
          match anchorShort a with
          | none => fs
          | some v => if v ∈ fs then fs else fs ++ [v])
        acc).Nodup := by
  intro l
  induction l with
  | nil => intro acc h; exact h
  | cons a as ih =>
    intro acc h
    rw [List.foldl_cons]
    apply ih
    rcases ha : anchorShort a with _ | v
    · exact h
    · show (if v ∈ acc then acc else acc ++ [v]).Nodup
      by_cases hv : v ∈ acc
      · rw [if_pos hv]; exact h
      · rw [if_neg hv]
        simp [List.nodup_append, h, hv]

theorem collectFolders_nodup (anchors : List Anchor) :
    (collectFolders anchors).Nodup :=
  collect_step_nodup anchors [] (by simp)

/-- Claim C5: the parser extracts digit runs from the final path segment of
each anchor href (falling back to the visible text when the segment has no
digits), applies the nested-`10.0`-prefix rule for four or more runs and the
plain first-two rule otherwise, skips anchors yielding fewer than two runs,
de-duplicates by short name and sorts ascending by numeric tuple: the
membership equation characterises which short names appear, the result of
every document is duplicate-free and ascending under the numeric-tuple key,
and the fixture `["../", "5.0/", "7.2/", "a/b/10.0/0.1/"]` parses to
`["0.1","5.0","7.2"]`. -/
theorem parse_h5ai_folders_spec (anchors : List Anchor) (s : String) :
    (s ∈ parse_h5ai_index_for_folders anchors ↔ ∃ a ∈ anchors, anchorShort a = some s)
    ∧ (parse_h5ai_index_for_folders anchors).Nodup
    ∧ (parse_h5ai_index_for_folders anchors).Pairwise
        (fun v w => listNatLe (keyOf v) (keyOf w) = true)
    ∧ parse_h5ai_index_for_folders
        [⟨"../", ""⟩, ⟨"5.0/", ""⟩, ⟨"7.2/", ""⟩, ⟨"a/b/10.0/0.1/", ""⟩]
      = ["0.1", "5.0", "7.2"]
    ∧ anchorShort ⟨"10.0.26100.1742/", ""⟩ = some "26100.1742"
    ∧ anchorShort ⟨"nodigits/", "build 5.1"⟩ = some "5.1"
    ∧ anchorShort ⟨"abc/", "xyz"⟩ = none
    ∧ anchorShort ⟨"123/", ""⟩ = none := by
  refine ⟨?_, ?_, ?_, by decide, by decide, by decide, by decide, by decide⟩
  · rw [parse_h5ai_index_for_folders, (sortByKey_perm _).mem_iff, collectFolders_mem]
  · exact (sortByKey_perm _).nodup_iff.mpr (collectFolders_nodup anchors)
  · exact sortByKey_sorted (collectFolders anchors)

/-- The numeric pair a produced short name denotes (inverse of `mkShort` on
the parser's output). -/
def keyPair (s : String) : Nat × Nat := ((keyOf s).getD 0 0, (keyOf s).getD 1 0)

theorem keyPair_mkShort (p : Nat × Nat) : keyPair (mkShort p) = p := by
  show ((keyOf (mkShort p)).getD 0 0, (keyOf (mkShort p)).getD 1 0) = p
  rw [keyOf_mkShort]
  rfl

/-- Claim C10: every entry of the parser's result is a two-component dotted
decimal string `"M.N"` (the image of a numeric pair under `mkShort`), the
underlying pairs are strictly ascending in numeric-tuple order (hence the
list is duplicate-free), and splitting an entry on `'.'` and converting the
components with `int` recovers exactly that pair — the invariant the
resolver's later `int(f.split(".")[i])` accesses rely on. -/
theorem parse_h5ai_folders_invariant (anchors : List Anchor) :
    ∃ ps : List (Nat × Nat),
      parse_h5ai_index_for_folders anchors = ps.map mkShort
      ∧ ps.Pairwise (fun p q => p.1 < q.1 ∨ (p.1 = q.1 ∧ p.2 < q.2))
      ∧ ∀ p ∈ ps, keyOf (mkShort p) = [p.1, p.2] := by
  have hform : ∀ s ∈ parse_h5ai_index_for_folders anchors,
      ∃ p : Nat × Nat, s = mkShort p := by
    intro s hs
    rw [parse_h5ai_index_for_folders, (sortByKey_perm _).mem_iff,
      collectFolders_mem] at hs
    rcases hs with ⟨a, _, hsa⟩
    rcases Option.map_eq_some'.mp hsa with ⟨p, _, hps⟩
    exact ⟨p, hps.symm⟩
  have hnodup : (parse_h5ai_index_for_folders anchors).Nodup :=
    (sortByKey_perm _).nodup_iff.mpr (collectFolders_nodup anchors)
  have hsorted := sortByKey_sorted (collectFolders anchors)
  have hfix : ∀ s ∈ parse_h5ai_index_for_folders anchors, mkShort (keyPair s) = s := by
    intro s hs
    rcases hform s hs with ⟨p, rfl⟩
    rw [keyPair_mkShort]
  refine ⟨(parse_h5ai_index_for_folders anchors).map keyPair, ?_, ?_, ?_⟩
  · rw [List.map_map]
    conv_lhs => rw [← List.map_id (parse_h5ai_index_for_folders anchors)]
    exact (List.map_congr_left fun s hs => (hfix s hs).symm)
  · rw [List.pairwise_map]
    have hne : (parse_h5ai_index_for_folders anchors).Pairwise (fun s t => s ≠ t) :=
      hnodup
    have hcomb := hsorted.and hne
    refine hcomb.imp_of_mem ?_
    intro s t hsmem htmem hst
    rcases hform s hsmem with ⟨p, rfl⟩
    rcases hform t htmem with ⟨q, rfl⟩
    rcases hst with ⟨hle, hne2⟩
    rw [keyOf_mkShort, keyOf_mkShort] at hle
    rw [keyPair_mkShort, keyPair_mkShort]
    refine listNatLe_pair_strict p.1 p.2 q.1 q.2 hle ?_
    intro hpq
    exact hne2 (by rw [show p = q from Prod.ext (congrArg Prod.fst hpq)
      (congrArg Prod.snd hpq)])
  · intro p hp
    rcases List.mem_map.mp hp with ⟨s, hs, rfl⟩
    rcases hform s hs with ⟨q, rfl⟩
    rw [keyPair_mkShort]
    exact keyOf_mkShort q

end Triquetra
